import Mathlib

/-!
Verification of the text-transformation core of the `dev-debugging-notes`
repository tools (`tools/generate-toc.py` and `tools/update-stats.py`).

The Python code is shallowly embedded over `List Char`.  Character classes
(`\w`, `\s`, `str.lower`) are modelled at their ASCII fragment, which is the
alphabet the repository's markdown files use; `re.sub` is modelled as
find-and-splice with the replacement inserted verbatim.
-/

/-- Model of Python `str.lower()` on the ASCII letters (the identity on every
other character): codepoints 65-90 are shifted to 97-122. -/
def pyLower (c : Char) : Char :=
  if 65 ≤ c.toNat ∧ c.toNat ≤ 90 then Char.ofNat (c.toNat + 32) else c

/-- Model of the regex class `\s` (ASCII fragment): space, tab, newline,
carriage return, vertical tab, form feed. -/
def pyIsSpace (c : Char) : Bool :=
  c == ' ' || c == '\t' || c == '\n' || c == '\r' || c == '\x0b' || c == '\x0c'

/-- Model of the regex class `\w` (ASCII fragment): letters, digits,
underscore. -/
def pyIsWord (c : Char) : Bool :=
  c.isAlpha || c.isDigit || c == '_'

/-- Characters kept by `re.sub(r'[^\w\s-]', '', anchor)` (generate-toc.py
line 55): word characters, whitespace, and hyphens. -/
def keepChar (c : Char) : Bool :=
  pyIsWord c || pyIsSpace c || c == '-'

/-- Model of `re.sub(p_run, r, s)` for a pattern matching a maximal run of
characters satisfying `p` (used for `\s+` and `-+`): each maximal run is
replaced by the single character `r`.  The boolean records whether the
previous character was part of a run. -/
def replaceRunsAux (p : Char → Bool) (r : Char) : Bool → List Char → List Char
  | _, [] => []
  | inRun, c :: cs =>
    if p c then
      if inRun then replaceRunsAux p r true cs
      else r :: replaceRunsAux p r true cs
    else c :: replaceRunsAux p r false cs

/-- Replace each maximal run of `p`-characters by the single character `r`. -/
def replaceRuns (p : Char → Bool) (r : Char) (l : List Char) : List Char :=
  replaceRunsAux p r false l

/-- Remove the trailing characters satisfying `p`. -/
def dropTrailing (p : Char → Bool) : List Char → List Char
  | [] => []
  | c :: cs =>
    match dropTrailing p cs with
    | [] => if p c then [] else [c]
    | r => c :: r

/-- Model of Python `str.strip(chars)`: drop leading and trailing characters
satisfying `p`. -/
def pyStrip (p : Char → Bool) (l : List Char) : List Char :=
  dropTrailing p (l.dropWhile p)

/-- Model of `TOCGenerator.generate_anchor` (generate-toc.py lines 49-64):
lowercase, drop characters outside `[\w\s-]`, replace whitespace runs by a
hyphen, collapse hyphen runs, strip leading and trailing hyphens. -/
def generate_anchor (title : List Char) : List Char :=
  let lowered := title.map pyLower
  let cleaned := lowered.filter keepChar
  let hyphenated := replaceRuns pyIsSpace '-' cleaned
  let collapsed := replaceRuns (fun c => c == '-') '-' hyphenated
  pyStrip (fun c => c == '-') collapsed

/-- Whether the list contains two consecutive hyphens. -/
def hasDoubleHyphen : List Char → Bool
  | c1 :: c2 :: rest => (c1 == '-' && c2 == '-') || hasDoubleHyphen (c2 :: rest)
  | _ => false

/-- Spec-literal anchor pipeline for claim C2: the character-removal step
keeps only letters, digits, underscores and whitespace — in particular it
removes hyphens.  (Written from the specification's words, to be compared
with `generate_anchor`, which is written from the source.) -/
def anchorSpecRemovingHyphens (title : List Char) : List Char :=
  let lowered := title.map pyLower
  let cleaned := lowered.filter (fun c => pyIsWord c || pyIsSpace c)
  let hyphenated := replaceRuns pyIsSpace '-' cleaned
  let collapsed := replaceRuns (fun c => c == '-') '-' hyphenated
  pyStrip (fun c => c == '-') collapsed

/-- Amended spec anchor pipeline: like `anchorSpecRemovingHyphens` but the
removal step also keeps hyphens, matching the source's `[^\w\s-]` class. -/
def anchorSpecKeepingHyphens (title : List Char) : List Char :=
  let lowered := title.map pyLower
  let cleaned := lowered.filter (fun c => pyIsWord c || pyIsSpace c || c == '-')
  let hyphenated := replaceRuns pyIsSpace '-' cleaned
  let collapsed := replaceRuns (fun c => c == '-') '-' hyphenated
  pyStrip (fun c => c == '-') collapsed

lemma char_toNat_ofNat (n : Nat) (h : n.isValidChar) : (Char.ofNat n).toNat = n := by
  unfold Char.ofNat
  rw [dif_pos h]
  simp [Char.ofNatAux, Char.toNat, UInt32.toNat]

lemma toNat_pyLower (c : Char) :
    (pyLower c).toNat = if 65 ≤ c.toNat ∧ c.toNat ≤ 90 then c.toNat + 32 else c.toNat := by
  unfold pyLower
  split
  · next h =>
    have hv : (c.toNat + 32).isValidChar := Or.inl (by omega)
    rw [char_toNat_ofNat _ hv]
  · rfl

lemma pyLower_idem (c : Char) : pyLower (pyLower c) = pyLower c := by
  by_cases h : 65 ≤ c.toNat ∧ c.toNat ≤ 90
  · have h1 : (pyLower c).toNat = c.toNat + 32 := by rw [toNat_pyLower, if_pos h]
    have h2 : ¬(65 ≤ (pyLower c).toNat ∧ (pyLower c).toNat ≤ 90) := by omega
    set d := pyLower c with hd
    unfold pyLower
    rw [if_neg h2]
  · have h1 : pyLower c = c := by unfold pyLower; rw [if_neg h]
    rw [h1, h1]

lemma mem_replaceRunsAux {p : Char → Bool} {r : Char} {l : List Char} {b : Bool} {c : Char}
    (h : c ∈ replaceRunsAux p r b l) : c = r ∨ (c ∈ l ∧ p c = false) := by
  induction l generalizing b with
  | nil => simp [replaceRunsAux] at h
  | cons a t ih =>
    by_cases hp : p a
    · by_cases hb : b
      · subst hb
        simp only [replaceRunsAux, hp, if_true] at h
        rcases ih h with h' | ⟨hm, hpc⟩
        · exact Or.inl h'
        · exact Or.inr ⟨List.mem_cons_of_mem _ hm, hpc⟩
      · simp only [Bool.not_eq_true] at hb; subst hb
        simp only [replaceRunsAux, hp, if_true] at h
        rcases List.mem_cons.mp h with h' | h'
        · exact Or.inl h'
        · rcases ih h' with h'' | ⟨hm, hpc⟩
          · exact Or.inl h''
          · exact Or.inr ⟨List.mem_cons_of_mem _ hm, hpc⟩
    · simp only [replaceRunsAux, hp, if_false, Bool.false_eq_true] at h
      rcases List.mem_cons.mp h with h' | h'
      · subst h'; exact Or.inr ⟨List.mem_cons_self _ _, by simpa using hp⟩
      · rcases ih h' with h'' | ⟨hm, hpc⟩
        · exact Or.inl h''
        · exact Or.inr ⟨List.mem_cons_of_mem _ hm, hpc⟩

lemma replaceRunsAux_eq_self {p : Char → Bool} {r : Char} {l : List Char}
    (h : ∀ c ∈ l, p c = false) (b : Bool) : replaceRunsAux p r b l = l := by
  induction l generalizing b with
  | nil => rfl
  | cons a t ih =>
    have ha : p a = false := h a (List.mem_cons_self _ _)
    simp only [replaceRunsAux, ha, Bool.false_eq_true, if_false, List.cons.injEq, true_and]
    exact ih (fun c hc => h c (List.mem_cons_of_mem _ hc)) false

lemma head?_replaceRunsAux_true {p : Char → Bool} {r : Char} {l : List Char} {c : Char}
    (h : (replaceRunsAux p r true l).head? = some c) : p c = false := by
  induction l with
  | nil => simp [replaceRunsAux] at h
  | cons a t ih =>
    by_cases hp : p a
    · simp only [replaceRunsAux, hp, if_true] at h
      exact ih h
    · simp only [replaceRunsAux, hp, Bool.false_eq_true, if_false, List.head?_cons,
        Option.some.injEq] at h
      subst h
      simpa using hp

lemma hasDoubleHyphen_cons_tail {a : Char} {l : List Char}
    (h : hasDoubleHyphen (a :: l) = false) : hasDoubleHyphen l = false := by
  cases l with
  | nil => rfl
  | cons b t =>
    simp only [hasDoubleHyphen, Bool.or_eq_false_iff] at h
    exact h.2

lemma hasDoubleHyphen_replaceRunsAux (l : List Char) (b : Bool) :
    hasDoubleHyphen (replaceRunsAux (fun c => c == '-') '-' b l) = false := by
  induction l generalizing b with
  | nil => rfl
  | cons a t ih =>
    by_cases hp : (a == '-') = true
    · by_cases hb : b
      · subst hb
        simp only [replaceRunsAux, hp, if_true]
        exact ih true
      · simp only [Bool.not_eq_true] at hb; subst hb
        simp only [replaceRunsAux, hp, if_true]
        cases hr : replaceRunsAux (fun c => c == '-') '-' true t with
        | nil => rfl
        | cons c rest =>
          have hc : (c == '-') = false := by
            have := head?_replaceRunsAux_true (p := fun c => c == '-') (r := '-')
              (l := t) (c := c) (by rw [hr]; rfl)
            exact this
          simp only [hasDoubleHyphen, Bool.or_eq_false_iff]
          constructor
          · simp [hc]
          · have := ih true
            rw [hr] at this
            exact this
    · simp only [replaceRunsAux, hp, Bool.false_eq_true, if_false]
      cases hr : replaceRunsAux (fun c => c == '-') '-' false t with
      | nil => rfl
      | cons c rest =>
        simp only [hasDoubleHyphen, Bool.or_eq_false_iff]
        constructor
        · simp [hp]
        · have := ih false
          rw [hr] at this
          exact this

lemma replaceRunsAux_hyphen_id (l : List Char) (h : hasDoubleHyphen l = false) :
    replaceRunsAux (fun c => c == '-') '-' false l = l ∧
    ((∀ c, l.head? = some c → (c == '-') = false) →
      replaceRunsAux (fun c => c == '-') '-' true l = l) := by
  induction l with
  | nil => exact ⟨rfl, fun _ => rfl⟩
  | cons a t ih =>
    have ht : hasDoubleHyphen t = false := hasDoubleHyphen_cons_tail h
    obtain ⟨ihf, iht⟩ := ih ht
    by_cases hp : (a == '-') = true
    · have hhead : ∀ c, t.head? = some c → (c == '-') = false := by
        intro c hc
        cases t with
        | nil => simp at hc
        | cons b u =>
          simp only [List.head?_cons, Option.some.injEq] at hc
          subst hc
          simp only [hasDoubleHyphen, Bool.or_eq_false_iff] at h
          have := h.1
          simp only [Bool.and_eq_false_iff] at this
          rcases this with h' | h'
          · rw [hp] at h'; exact absurd h' (by simp)
          · exact h'
      constructor
      · have ha : a = '-' := by simpa using hp
        simp only [replaceRunsAux, hp, if_true, Bool.false_eq_true, if_false]
        rw [iht hhead, ha]
      · intro hh
        have := hh a (by rfl)
        rw [hp] at this
        exact absurd this (by simp)
    · constructor
      · simp only [replaceRunsAux, hp, Bool.false_eq_true, if_false, List.cons.injEq, true_and]
        exact ihf
      · intro _
        simp only [replaceRunsAux, hp, Bool.false_eq_true, if_false, List.cons.injEq, true_and]
        exact ihf

lemma mem_dropTrailing {p : Char → Bool} {l : List Char} {c : Char}
    (h : c ∈ dropTrailing p l) : c ∈ l := by
  induction l with
  | nil => simpa [dropTrailing] using h
  | cons a t ih =>
    simp only [dropTrailing] at h
    cases hr : dropTrailing p t with
    | nil =>
      rw [hr] at h
      by_cases hp : p a
      · simp [hp] at h
      · simp only [hp, Bool.false_eq_true, if_false, List.mem_singleton] at h
        subst h
        exact List.mem_cons_self _ _
    | cons b u =>
      rw [hr] at h
      rcases List.mem_cons.mp h with h' | h'
      · subst h'; exact List.mem_cons_self _ _
      · apply List.mem_cons_of_mem
        apply ih
        rw [hr]
        exact h' 

lemma dropTrailing_isPrefix {p : Char → Bool} (l : List Char) : dropTrailing p l <+: l := by
  induction l with
  | nil => exact List.prefix_refl _
  | cons a t ih =>
    simp only [dropTrailing]
    cases hr : dropTrailing p t with
    | nil =>
      by_cases hp : p a
      · simp only [hp, if_true]
        exact List.nil_prefix
      · simp only [hp, Bool.false_eq_true, if_false]
        exact List.cons_prefix_cons.mpr ⟨rfl, List.nil_prefix⟩
    | cons b u =>
      refine List.cons_prefix_cons.mpr ⟨rfl, ?_⟩
      rw [← hr]
      exact ih

lemma getLast?_dropTrailing {p : Char → Bool} {l : List Char} {c : Char}
    (h : (dropTrailing p l).getLast? = some c) : p c = false := by
  induction l with
  | nil => simp [dropTrailing] at h
  | cons a t ih =>
    simp only [dropTrailing] at h
    cases hr : dropTrailing p t with
    | nil =>
      rw [hr] at h
      by_cases hp : p a
      · simp [hp] at h
      · simp only [hp, Bool.false_eq_true, if_false] at h
        simp only [List.getLast?_singleton, Option.some.injEq] at h
        subst h
        simpa using hp
    | cons b u =>
      rw [hr] at h
      rw [List.getLast?_cons_cons] at h
      apply ih
      rw [hr]
      exact h

lemma dropTrailing_eq_self {p : Char → Bool} {l : List Char}
    (h : ∀ c, l.getLast? = some c → p c = false) : dropTrailing p l = l := by
  induction l with
  | nil => rfl
  | cons a t ih =>
    simp only [dropTrailing]
    cases t with
    | nil =>
      have := h a (by rfl)
      simp [dropTrailing, this]
    | cons b u =>
      have ht : dropTrailing p (b :: u) = b :: u := by
        apply ih
        intro c hc
        apply h
        rw [List.getLast?_cons_cons]
        exact hc
      rw [ht]

lemma hasDoubleHyphen_append_left {x y : List Char}
    (h : hasDoubleHyphen (x ++ y) = false) : hasDoubleHyphen x = false := by
  induction x with
  | nil => rfl
  | cons a t ih =>
    cases t with
    | nil => rfl
    | cons b u =>
      simp only [List.cons_append, hasDoubleHyphen, Bool.or_eq_false_iff] at h ⊢
      exact ⟨h.1, ih (by simpa using h.2)⟩

lemma hasDoubleHyphen_dropWhile {p : Char → Bool} {l : List Char}
    (h : hasDoubleHyphen l = false) : hasDoubleHyphen (l.dropWhile p) = false := by
  induction l with
  | nil => rfl
  | cons a t ih =>
    by_cases hp : p a
    · rw [List.dropWhile_cons_of_pos hp]
      exact ih (hasDoubleHyphen_cons_tail h)
    · rw [List.dropWhile_cons_of_neg hp]
      exact h

lemma head?_dropWhile {p : Char → Bool} {l : List Char} {c : Char}
    (h : (l.dropWhile p).head? = some c) : p c = false := by
  induction l with
  | nil => simp at h
  | cons a t ih =>
    by_cases hp : p a
    · rw [List.dropWhile_cons_of_pos hp] at h
      exact ih h
    · rw [List.dropWhile_cons_of_neg hp] at h
      simp only [List.head?_cons, Option.some.injEq] at h
      subst h
      simpa using hp

lemma dropWhile_eq_self {p : Char → Bool} {l : List Char}
    (h : ∀ c, l.head? = some c → p c = false) : l.dropWhile p = l := by
  cases l with
  | nil => rfl
  | cons a t =>
    have := h a rfl
    rw [List.dropWhile_cons_of_neg (by simp [this])]

lemma map_eq_self {α : Type} {f : α → α} {l : List α} (h : ∀ a ∈ l, f a = a) :
    l.map f = l := by
  induction l with
  | nil => rfl
  | cons a t ih =>
    simp only [List.map_cons, h a (List.mem_cons_self _ _), List.cons.injEq, true_and]
    exact ih (fun x hx => h x (List.mem_cons_of_mem _ hx))

/-- Every character of a generated anchor survives the cleaning pipeline:
it is kept by the character class, is not whitespace, and is fixed by
lowercasing. -/
lemma anchor_chars {t : List Char} {c : Char} (h : c ∈ generate_anchor t) :
    keepChar c = true ∧ pyIsSpace c = false ∧ pyLower c = c := by
  unfold generate_anchor at h
  simp only at h
  have h4 : c ∈ replaceRuns (fun c => c == '-') '-'
      (replaceRuns pyIsSpace '-' ((t.map pyLower).filter keepChar)) := by
    unfold pyStrip at h
    exact (List.dropWhile_suffix _).subset (mem_dropTrailing h)
  have hcase : c = '-' ∨ (c ∈ (t.map pyLower).filter keepChar ∧ pyIsSpace c = false) := by
    rcases mem_replaceRunsAux h4 with h' | ⟨h3, _⟩
    · exact Or.inl h'
    · rcases mem_replaceRunsAux h3 with h' | ⟨h2, hsp⟩
      · exact Or.inl h'
      · exact Or.inr ⟨h2, hsp⟩
  rcases hcase with rfl | ⟨h2, hsp⟩
  · refine ⟨by decide, by decide, by decide⟩
  · have hkeep : keepChar c = true := (List.mem_filter.mp h2).2
    have hmem : c ∈ t.map pyLower := (List.mem_filter.mp h2).1
    obtain ⟨x, _, hx⟩ := List.mem_map.mp hmem
    refine ⟨hkeep, hsp, ?_⟩
    rw [← hx]
    exact pyLower_idem x

lemma anchor_no_space {t : List Char} {c : Char} (h : c ∈ generate_anchor t) :
    pyIsSpace c = false :=
  (anchor_chars h).2.1

lemma anchor_no_double (t : List Char) : hasDoubleHyphen (generate_anchor t) = false := by
  unfold generate_anchor pyStrip
  simp only
  have h4 : hasDoubleHyphen (replaceRuns (fun c => c == '-') '-'
      (replaceRuns pyIsSpace '-' ((t.map pyLower).filter keepChar))) = false :=
    hasDoubleHyphen_replaceRunsAux _ _
  have h5 := hasDoubleHyphen_dropWhile (p := fun c => c == '-') h4
  obtain ⟨tail, htail⟩ := dropTrailing_isPrefix (p := fun c => c == '-')
    ((replaceRuns (fun c => c == '-') '-'
      (replaceRuns pyIsSpace '-' ((t.map pyLower).filter keepChar))).dropWhile
        (fun c => c == '-'))
  rw [← htail] at h5
  exact hasDoubleHyphen_append_left h5

lemma head?_dropTrailing {p : Char → Bool} {X : List Char} {c : Char}
    (h : (dropTrailing p X).head? = some c) : X.head? = some c := by
  have hpre := dropTrailing_isPrefix (p := p) X
  cases hdt : dropTrailing p X with
  | nil => rw [hdt] at h; exact absurd h (by simp)
  | cons b u =>
    rw [hdt] at h hpre
    cases X with
    | nil => exact absurd hpre (by simp)
    | cons b' u' =>
      obtain ⟨hb, -⟩ := List.cons_prefix_cons.mp hpre
      subst hb
      exact h

lemma anchor_head {t : List Char} {c : Char} (h : (generate_anchor t).head? = some c) :
    (c == '-') = false := by
  unfold generate_anchor pyStrip at h
  simp only at h
  exact head?_dropWhile (p := fun c => c == '-') (head?_dropTrailing (p := fun c => c == '-') h)

lemma anchor_last {t : List Char} {c : Char} (h : (generate_anchor t).getLast? = some c) :
    (c == '-') = false := by
  unfold generate_anchor pyStrip at h
  simp only at h
  exact getLast?_dropTrailing (p := fun c => c == '-') h

/-- Claim C10: for every input title, the anchor generator's output contains
no whitespace character, contains no two consecutive hyphens, and neither
starts nor ends with a hyphen. -/
theorem claim_C10_anchor_shape (t : List Char) :
    (generate_anchor t).all (fun c => !pyIsSpace c) = true ∧
    hasDoubleHyphen (generate_anchor t) = false ∧
    (generate_anchor t).head? ≠ some '-' ∧
    (generate_anchor t).getLast? ≠ some '-' := by
  refine ⟨?_, anchor_no_double t, ?_, ?_⟩
  · rw [List.all_eq_true]
    intro c hc
    rw [anchor_no_space hc]
    rfl
  · intro h
    have := anchor_head h
    simp at this
  · intro h
    have := anchor_last h
    simp at this

/-- Claim C3: anchor generation is idempotent, and the title
"Hello, World!!" yields the anchor "hello-world". -/
theorem claim_C3_anchor_idempotent :
    (∀ t : List Char, generate_anchor (generate_anchor t) = generate_anchor t) ∧
    generate_anchor "Hello, World!!".data = "hello-world".data := by
  constructor
  · intro t
    set S := generate_anchor t with hS
    have hmap : S.map pyLower = S := map_eq_self (fun c hc => (anchor_chars hc).2.2)
    have hfil : S.filter keepChar = S := List.filter_eq_self.mpr (fun c hc => (anchor_chars hc).1)
    have hsp : replaceRuns pyIsSpace '-' S = S :=
      replaceRunsAux_eq_self (fun c hc => (anchor_chars hc).2.1) false
    have hhy : replaceRuns (fun c => c == '-') '-' S = S :=
      (replaceRunsAux_hyphen_id S (hS ▸ anchor_no_double t)).1
    have hdw : S.dropWhile (fun c => c == '-') = S :=
      dropWhile_eq_self (fun c hc => anchor_head (hS ▸ hc))
    have hdt : dropTrailing (fun c => c == '-') S = S :=
      dropTrailing_eq_self (fun c hc => anchor_last (hS ▸ hc))
    show generate_anchor S = S
    unfold generate_anchor
    simp only
    rw [hmap, hfil, hsp, hhy]
    unfold pyStrip
    rw [hdw, hdt]
  · decide

/-- Claim C2 counterexample: the source's character-removal class `[^\w\s-]`
keeps hyphens, so a hyphen present in the input title is kept, while the
spec's described pipeline removes it: the two disagree on "a-b". -/
theorem claim_C2_counterexample :
    generate_anchor "a-b".data = "a-b".data ∧
    anchorSpecRemovingHyphens "a-b".data = "ab".data ∧
    generate_anchor "a-b".data ≠ anchorSpecRemovingHyphens "a-b".data := by
  refine ⟨by decide, by decide, by decide⟩

/-- Claim C2 (amended): the anchor generator returns the string obtained by
lowercasing, removing every character that is not a letter, digit,
underscore, whitespace or hyphen, collapsing whitespace runs to single
hyphens, collapsing hyphen runs, and stripping leading/trailing hyphens. -/
theorem claim_C2_anchor_pipeline (t : List Char) :
    generate_anchor t = anchorSpecKeepingHyphens t := rfl

/-- Split a character list at newline characters (semantics of iterating the
`re.MULTILINE` scan line by line, or of `str.split("\n")`). -/
def splitLines : List Char → List (List Char)
  | [] => [[]]
  | c :: rest =>
    if c = '\n' then [] :: splitLines rest
    else
      match splitLines rest with
      | [] => [[c]]
      | l :: ls => (c :: l) :: ls

/-- Join lines with newline separators (inverse of `splitLines`). -/
def joinLines : List (List Char) → List Char
  | [] => []
  | [l] => l
  | l :: l' :: ls => l ++ '\n' :: joinLines (l' :: ls)

lemma splitLines_ne_nil (s : List Char) : splitLines s ≠ [] := by
  cases s with
  | nil => simp [splitLines]
  | cons c rest =>
    by_cases h : c = '\n'
    · simp [splitLines, h]
    · simp only [splitLines, h, if_false]
      cases splitLines rest <;> simp

lemma joinLines_splitLines (s : List Char) : joinLines (splitLines s) = s := by
  induction s with
  | nil => rfl
  | cons c rest ih =>
    by_cases h : c = '\n'
    · subst h
      simp only [splitLines, if_pos rfl]
      cases hs : splitLines rest with
      | nil => exact absurd hs (splitLines_ne_nil rest)
      | cons l ls =>
        rw [hs] at ih
        simp only [joinLines, List.nil_append]
        rw [ih]
    · simp only [splitLines, h, if_false]
      cases hs : splitLines rest with
      | nil => exact absurd hs (splitLines_ne_nil rest)
      | cons l ls =>
        rw [hs] at ih
        cases ls with
        | nil =>
          simp only [joinLines] at ih ⊢
          rw [ih]
        | cons l2 ls2 =>
          simp only [joinLines, List.cons_append] at ih ⊢
          rw [ih]

lemma mem_splitLines_no_newline {s : List Char} {l : List Char} (hl : l ∈ splitLines s)
    {c : Char} (hc : c ∈ l) : c ≠ '\n' := by
  induction s generalizing l with
  | nil =>
    simp only [splitLines, List.mem_singleton] at hl
    subst hl
    simp at hc
  | cons a rest ih =>
    by_cases h : a = '\n'
    · have heq : splitLines (a :: rest) = [] :: splitLines rest := by
        simp [splitLines, h]
      rw [heq] at hl
      rcases List.mem_cons.mp hl with rfl | hl'
      · simp at hc
      · exact ih hl' hc
    · simp only [splitLines, h, if_false] at hl
      obtain ⟨l0, ls, hs⟩ := List.exists_cons_of_ne_nil (splitLines_ne_nil rest)
      simp only [hs] at hl
      rcases List.mem_cons.mp hl with rfl | hl'
      · rcases List.mem_cons.mp hc with rfl | hc'
        · exact h
        · exact ih (hs ▸ List.mem_cons_self _ _) hc'
      · exact ih (hs ▸ List.mem_cons_of_mem _ hl') hc

lemma splitLines_no_newline {l : List Char} (h : ∀ c ∈ l, c ≠ '\n') :
    splitLines l = [l] := by
  induction l with
  | nil => rfl
  | cons a t ih =>
    have ha : a ≠ '\n' := h a (List.mem_cons_self _ _)
    simp only [splitLines, ha, if_false]
    rw [ih (fun c hc => h c (List.mem_cons_of_mem _ hc))]

lemma splitLines_append_newline {l r : List Char} (h : ∀ c ∈ l, c ≠ '\n') :
    splitLines (l ++ '\n' :: r) = l :: splitLines r := by
  induction l with
  | nil => simp [splitLines]
  | cons a t ih =>
    have ha : a ≠ '\n' := h a (List.mem_cons_self _ _)
    simp only [List.cons_append, splitLines, ha, if_false, List.append_eq]
    rw [ih (fun c hc => h c (List.mem_cons_of_mem _ hc))]

lemma splitLines_joinLines {ls : List (List Char)} (hnl : ∀ l ∈ ls, ∀ c ∈ l, c ≠ '\n')
    (hne : ls ≠ []) : splitLines (joinLines ls) = ls := by
  induction ls with
  | nil => exact absurd rfl hne
  | cons l ls' ih =>
    cases ls' with
    | nil => exact splitLines_no_newline (hnl l (List.mem_cons_self _ _))
    | cons l2 ls2 =>
      simp only [joinLines]
      rw [splitLines_append_newline (hnl l (List.mem_cons_self _ _))]
      congr 1
      exact ih (fun x hx => hnl x (List.mem_cons_of_mem _ hx)) (by simp)

lemma mem_joinLines_isInfix {ls : List (List Char)} {l : List Char} (h : l ∈ ls) :
    l <:+: joinLines ls := by
  induction ls with
  | nil => simp at h
  | cons x ls' ih =>
    cases ls' with
    | nil =>
      simp only [List.mem_singleton] at h
      subst h
      exact List.infix_refl _
    | cons y ls2 =>
      rcases List.mem_cons.mp h with rfl | h'
      · exact List.IsPrefix.isInfix (List.prefix_append _ _)
      · have := ih h'
        simp only [joinLines]
        obtain ⟨u, v, huv⟩ := this
        exact ⟨x ++ '\n' :: u, v, by rw [← huv]; simp⟩

lemma mem_splitLines_isInfix {s l : List Char} (h : l ∈ splitLines s) : l <:+: s := by
  have := mem_joinLines_isInfix h
  rwa [joinLines_splitLines] at this

/-- One attempted match of the header regex `^(#{1,6})\s+(.+)$`
(re.MULTILINE, without DOTALL) at a line-start position, `s` being the text
from that position on.  The leading `#` run must have length 1-6 and be
followed by at least one whitespace character; `\s+` is greedy and itself
matches newline characters, so the whitespace run `W` may span line breaks.
When a non-whitespace character follows `W`, `(.+)` captures from that
character to the end of its line.  When `W` reaches the end of the input,
the engine backtracks: `\s+` gives characters back until `(.+)` can match,
which happens at the last non-newline character of `W` provided `\s+` still
keeps at least one character; the capture is then that single whitespace
character and the remaining newline characters of `W` follow the match.
Returns the level, the text captured by `(.+)`, and the text remaining
after the match end.  `headerBacktrack` is the end-of-input backtracking
case, given the whitespace run `W`. -/
def headerBacktrack (k : Nat) (W : List Char) : Option (Nat × List Char × List Char) :=
  let nls := W.reverse.takeWhile (fun c => c == '\n')
  match W.reverse.dropWhile (fun c => c == '\n') with
  | [] => none
  | c :: _ => if 2 ≤ W.length - nls.length then some (k, [c], nls) else none

def headerMatchAt (s : List Char) : Option (Nat × List Char × List Char) :=
  let k := (s.takeWhile (fun c => c == '#')).length
  let afterH := s.dropWhile (fun c => c == '#')
  let W := afterH.takeWhile pyIsSpace
  let afterW := afterH.dropWhile pyIsSpace
  if 1 ≤ k ∧ k ≤ 6 then
    if 1 ≤ W.length then
      match afterW with
      | [] => headerBacktrack k W
      | c :: r =>
        some (k, (c :: r).takeWhile (fun x => !(x == '\n')),
          (c :: r).dropWhile (fun x => !(x == '\n')))
    else none
  else none

/-- The text from the position just after the next newline: the next
position at which re.MULTILINE lets `^` match. -/
def nextLineStart (t : List Char) : List Char :=
  (t.dropWhile (fun c => !(c == '\n'))).drop 1

/-- Fuel-bounded scan of `header_pattern.findall(content)`: attempt a match
at each line start in order, and resume scanning after the end of each
match (so text consumed by a match, including whole lines swallowed by a
newline-spanning `\s+`, is never re-matched).  A successful match consumes
at least three characters, so fuel equal to the text length suffices. -/
def findallHeadersGo : Nat → List Char → List (Nat × List Char)
  | 0, _ => []
  | fuel + 1, s =>
    match headerMatchAt s with
    | some (k, cap, rest) => (k, cap) :: findallHeadersGo fuel (nextLineStart rest)
    | none =>
      if s.isEmpty then [] else findallHeadersGo fuel (nextLineStart s)

/-- All matches of the header regex in document order
(`self.header_pattern.findall(content)`, generate-toc.py line 33). -/
def findallHeaders (s : List Char) : List (Nat × List Char) :=
  findallHeadersGo s.length s

/-- Titles that `extract_headers` skips (generate-toc.py line 40). -/
def skipTitles : List (List Char) :=
  ["table of contents".data, "contents".data, "toc".data]

/-- Processing of one regex match by `extract_headers`: strip the captured
title, drop table-of-contents titles, pair the header with its anchor. -/
def headerEntry (kc : Nat × List Char) : Option (Nat × List Char × List Char) :=
  let title := pyStrip pyIsSpace kc.2
  if title.map pyLower ∈ skipTitles then none
  else some (kc.1, title, generate_anchor title)

/-- Model of `TOCGenerator.extract_headers` (generate-toc.py lines 26-47):
run the header regex over the whole content and process each match. -/
def extract_headers (content : List Char) : List (Nat × List Char × List Char) :=
  (findallHeaders content).filterMap headerEntry

/-- Opening sentinel line of a TOC block. -/
def STARTsent : List Char := "<!-- TOC START -->".data

/-- Closing sentinel line of a TOC block. -/
def ENDsent : List Char := "<!-- TOC END -->".data

/-- Heading line of a TOC block. -/
def tocHeading : List Char := "## Table of Contents".data

/-- Rendered TOC entry for one header (generate-toc.py lines 82-87):
two spaces of indentation per level above `min_level`, then a markdown
link made of the title and anchor. -/
def tocEntry (min_level : Nat) (h : Nat × List Char × List Char) : List Char :=
  List.replicate (2 * (h.1 - min_level)) ' ' ++
    "- [".data ++ h.2.1 ++ "](#".data ++ h.2.2 ++ [')']

/-- Lines of the rendered TOC (generate-toc.py lines 72-90): fixed opening
lines, one entry per header inside the depth window (indentation normalised
by the minimum level over all headers), fixed closing lines. -/
def toc_lines (headers : List (Nat × List Char × List Char))
    (max_depth min_depth : Nat) : List (List Char) :=
  let min_level := ((headers.map Prod.fst).min?).getD 0
  [STARTsent, tocHeading, []] ++
    headers.filterMap (fun h =>
      if h.1 < min_depth ∨ max_depth < h.1 then none
      else some (tocEntry min_level h)) ++
    [[], ENDsent, []]

/-- Model of `TOCGenerator.generate_toc` (generate-toc.py lines 66-91):
empty result on an empty header list, otherwise the newline-join of
`toc_lines`. -/
def generate_toc (headers : List (Nat × List Char × List Char))
    (max_depth min_depth : Nat) : List Char :=
  if headers = [] then [] else joinLines (toc_lines headers max_depth min_depth)

lemma filterMap_guard {α β : Type} (P : α → Prop) [DecidablePred P] (f : α → β) (l : List α) :
    l.filterMap (fun x => if P x then none else some (f x)) =
      (l.filter (fun x => decide (¬ P x))).map f := by
  induction l with
  | nil => rfl
  | cons a t ih =>
    by_cases hp : P a
    · simp [List.filterMap_cons, List.filter_cons, hp, ih]
    · simp [List.filterMap_cons, List.filter_cons, hp, ih]

/-- Claim C1: for a non-empty header sequence the renderer emits exactly one
list line per header with level inside `[min_depth, max_depth]` and none for
the others, each line indented two spaces per level above the minimum level
taken over all extracted headers (not only the visible ones). -/
theorem claim_C1_toc_rendering (headers : List (Nat × List Char × List Char))
    (max_depth min_depth : Nat) (hne : headers ≠ []) :
    generate_toc headers max_depth min_depth =
      joinLines ([STARTsent, tocHeading, []] ++
        (headers.filter (fun h => decide (min_depth ≤ h.1) && decide (h.1 ≤ max_depth))).map
          (fun h => List.replicate (2 * (h.1 - ((headers.map Prod.fst).min?).getD 0)) ' ' ++
            "- [".data ++ h.2.1 ++ "](#".data ++ h.2.2 ++ [')']) ++
        [[], ENDsent, []]) := by
  have hfe : (fun x : Nat × List Char × List Char =>
      decide (¬(x.1 < min_depth ∨ max_depth < x.1))) =
      (fun h : Nat × List Char × List Char =>
        decide (min_depth ≤ h.1) && decide (h.1 ≤ max_depth)) := by
    funext x
    rw [Bool.eq_iff_iff]
    simp only [Bool.and_eq_true, decide_eq_true_eq, not_or, not_lt]
  unfold generate_toc
  rw [if_neg hne]
  unfold toc_lines
  simp only
  rw [filterMap_guard (fun h => h.1 < min_depth ∨ max_depth < h.1) (tocEntry _) headers, hfe]
  rfl

/-- Witness for claim C1 at the spec's own example: headers at levels 2 and
3 with the default depth window indent relative to baseline 2. -/
theorem claim_C1_witness :
    ([((2 : Nat), "A".data, "a".data), ((3 : Nat), "B".data, "b".data)] ≠
      ([] : List (Nat × List Char × List Char))) ∧
    generate_toc [((2 : Nat), "A".data, "a".data), ((3 : Nat), "B".data, "b".data)] 6 1 =
      joinLines ([STARTsent, tocHeading, []] ++
        (([((2 : Nat), "A".data, "a".data), ((3 : Nat), "B".data, "b".data)]).filter
          (fun h => decide ((1 : Nat) ≤ h.1) && decide (h.1 ≤ (6 : Nat)))).map
          (fun h => List.replicate
              (2 * (h.1 - ((([((2 : Nat), "A".data, "a".data),
                ((3 : Nat), "B".data, "b".data)]).map Prod.fst).min?).getD 0)) ' ' ++
            "- [".data ++ h.2.1 ++ "](#".data ++ h.2.2 ++ [')']) ++
        [[], ENDsent, []]) ∧
    generate_toc [((2 : Nat), "A".data, "a".data), ((3 : Nat), "B".data, "b".data)] 6 1 =
      "<!-- TOC START -->\n## Table of Contents\n\n- [A](#a)\n  - [B](#b)\n\n<!-- TOC END -->\n".data :=
  ⟨by decide,
   claim_C1_toc_rendering [((2 : Nat), "A".data, "a".data), ((3 : Nat), "B".data, "b".data)] 6 1
     (by decide),
   by decide⟩

/-- Index of the first match of the literal pattern `pat` in `s` (semantics
of `re.search` for an escaped literal): the least `i` with `pat` a prefix of
`s.drop i`. -/
def firstMatchAt (pat : List Char) : List Char → Option Nat
  | [] => if pat.isPrefixOf [] then some 0 else none
  | c :: cs =>
    if pat.isPrefixOf (c :: cs) then some 0
    else (firstMatchAt pat cs).map (fun i => i + 1)

lemma firstMatchAt_some {pat s : List Char} {i : Nat} (h : firstMatchAt pat s = some i) :
    pat <+: s.drop i ∧ (∀ j, j < i → ¬ pat <+: s.drop j) ∧ i ≤ s.length := by
  induction s generalizing i with
  | nil =>
    unfold firstMatchAt at h
    by_cases hp : pat.isPrefixOf []
    · rw [if_pos hp] at h
      cases h
      exact ⟨List.isPrefixOf_iff_prefix.mp hp, fun j hj => absurd hj (by omega), Nat.le_refl _⟩
    · rw [if_neg hp] at h
      cases h
  | cons c cs ih =>
    unfold firstMatchAt at h
    by_cases hp : pat.isPrefixOf (c :: cs)
    · rw [if_pos hp] at h
      cases h
      exact ⟨List.isPrefixOf_iff_prefix.mp hp, fun j hj => absurd hj (by omega), by simp⟩
    · rw [if_neg hp] at h
      obtain ⟨i', hi', rfl⟩ := Option.map_eq_some'.mp h
      obtain ⟨h1, h2, h3⟩ := ih hi'
      refine ⟨by simpa using h1, ?_, by simp; omega⟩
      intro j hj
      cases j with
      | zero =>
        simp only [List.drop_zero]
        exact fun hc => hp (List.isPrefixOf_iff_prefix.mpr hc)
      | succ j' =>
        rw [List.drop_succ_cons]
        exact h2 j' (by omega)

lemma firstMatchAt_le {pat s : List Char} {i : Nat} (h : firstMatchAt pat s = some i) :
    i + pat.length ≤ s.length := by
  obtain ⟨h1, -, h3⟩ := firstMatchAt_some h
  have := h1.length_le
  rw [List.length_drop] at this
  omega

/-- Location of the first TOC block, as matched by the non-greedy pattern
`<!-- TOC START -->.*?<!-- TOC END -->` with DOTALL (generate-toc.py lines
21-24): the first occurrence of the opening sentinel together with the end
position of the first occurrence of the closing sentinel after it.  Returns
`(start index, index one past the match)`. -/
def findTOCBlock (s : List Char) : Option (Nat × Nat) :=
  match firstMatchAt STARTsent s with
  | none => none
  | some i =>
    match firstMatchAt ENDsent (s.drop (i + STARTsent.length)) with
    | none => none
    | some j => some (i, i + STARTsent.length + j + ENDsent.length)

lemma findTOCBlock_bounds {s : List Char} {i e : Nat} (h : findTOCBlock s = some (i, e)) :
    i + 34 ≤ e ∧ e ≤ s.length := by
  unfold findTOCBlock at h
  cases h1 : firstMatchAt STARTsent s with
  | none => simp only [h1] at h; cases h
  | some i' =>
    simp only [h1] at h
    cases h2 : firstMatchAt ENDsent (s.drop (i' + STARTsent.length)) with
    | none => simp only [h2] at h; cases h
    | some j =>
      simp only [h2, Option.some.injEq, Prod.mk.injEq] at h
      obtain ⟨rfl, rfl⟩ := h
      have hle1 := firstMatchAt_le h1
      have hle2 := firstMatchAt_le h2
      rw [List.length_drop] at hle2
      have hS : STARTsent.length = 18 := by decide
      have hE : ENDsent.length = 16 := by decide
      omega

/-- Case-insensitive first-occurrence search of the escaped literal
`needle` (generate-toc.py line 119: `re.compile(re.escape(insert_after),
re.IGNORECASE)`), modelled by lowercasing both sides. -/
def ciFind (needle s : List Char) : Option Nat :=
  firstMatchAt (needle.map pyLower) (s.map pyLower)

/-- Tokens of a parsed `re.sub` replacement template: a literal character,
or a reference to group 0 (the whole match). -/
inductive TemplTok where
  | lit (c : Char)
  | group0
deriving DecidableEq

/-- Octal digit test. -/
def isOctB (c : Char) : Bool := decide ('0' ≤ c) && decide (c ≤ '7')

/-- Value of a string of octal digits. -/
def octVal (ds : List Char) : Nat := ds.foldl (fun n c => n * 8 + (c.toNat - 48)) 0

/-- Value of a string of decimal digits. -/
def digitsToNat (ds : List Char) : Nat := ds.foldl (fun n c => n * 10 + (c.toNat - 48)) 0

/-- Fuel-bounded parse of an `re.sub` replacement string against a pattern
with no capture groups (neither pattern this program passes to `sub` has
any), following CPython's `re._parser.parse_template`: `\g<name>` with an
all-digit name of value 0 refers to the whole match and any other group
reference (`\g` with another name, or `\1`-`\99`) is an invalid-group
error; `\0` with up to two further octal digits, and `\ddd` with three
octal digits (an error above 0o377), are character escapes; `\a \b \f \n
\r \t \v \\` are the known letter escapes; a backslash before any other
ASCII letter is a bad-escape error, a trailing backslash is an error, and
a backslash before any other character is kept literally together with
that character.  `none` is the `re.error` path.  `parseEscStep` handles
the text following one backslash, returning the tokens produced and the
remaining text; `parseTemplateGo` drives the scan, each step consuming at
least one character, so fuel equal to the template length suffices. -/
def parseEscStep : List Char → Option (List TemplTok × List Char)
  | [] => none
  | c2 :: r2 =>
    if c2 == 'g' then
      match r2 with
      | '<' :: r3 =>
        let name := r3.takeWhile (fun x => !(x == '>'))
        let after := r3.dropWhile (fun x => !(x == '>'))
        match after with
        | '>' :: r4 =>
          if name = [] then none
          else if name.all Char.isDigit then
            if digitsToNat name = 0 then some ([TemplTok.group0], r4) else none
          else none
        | _ => none
      | _ => none
    else if c2 == '0' then
      let ds := (r2.takeWhile isOctB).take 2
      some ([TemplTok.lit (Char.ofNat (octVal ds))], r2.drop ds.length)
    else if c2.isDigit then
      match r2 with
      | d2 :: d3 :: r4 =>
        if d2.isDigit && isOctB c2 && isOctB d2 && isOctB d3 then
          if octVal [c2, d2, d3] ≤ 255 then
            some ([TemplTok.lit (Char.ofNat (octVal [c2, d2, d3]))], r4)
          else none
        else none
      | _ => none
    else if c2 == '\\' then some ([TemplTok.lit '\\'], r2)
    else if c2.isAlpha then
      match (if c2 == 'a' then some 7 else if c2 == 'b' then some 8
        else if c2 == 'f' then some 12 else if c2 == 'n' then some 10
        else if c2 == 'r' then some 13 else if c2 == 't' then some 9
        else if c2 == 'v' then some 11 else none : Option Nat) with
      | some code => some ([TemplTok.lit (Char.ofNat code)], r2)
      | none => none
    else some ([TemplTok.lit '\\', TemplTok.lit c2], r2)

def parseTemplateGo : Nat → List Char → Option (List TemplTok)
  | _, [] => some []
  | 0, _ :: _ => none
  | fuel + 1, c :: rest =>
    if c == '\\' then
      match parseEscStep rest with
      | none => none
      | some (tks, r2) => (parseTemplateGo fuel r2).map (fun ts => tks ++ ts)
    else (parseTemplateGo fuel rest).map (fun ts => TemplTok.lit c :: ts)

/-- Parse of an `re.sub` replacement string; `none` is the `re.error`
path (raised when the template is compiled, before any text is written,
and caught by the `except` clause of `update_file_toc`). -/
def parseTemplate (t : List Char) : Option (List TemplTok) :=
  parseTemplateGo t.length t

/-- Expansion of a parsed replacement template at one match: literal
tokens stand for themselves, a group-0 reference for the matched text. -/
def instTemplate (tks : List TemplTok) (matched : List Char) : List Char :=
  tks.foldr (fun t acc =>
    match t with
    | TemplTok.lit c => c :: acc
    | TemplTok.group0 => matched ++ acc) []

/-- Fuel-bounded model of `existing_toc_pattern.sub` with a parsed
replacement template: every non-overlapping match, scanned left to right,
is replaced by the template expanded at that match. -/
def subTOCTemplFuel (tks : List TemplTok) : Nat → List Char → List Char
  | 0, s => s
  | fuel + 1, s =>
    match findTOCBlock s with
    | none => s
    | some (i, e) =>
      s.take i ++ instTemplate tks ((s.drop i).take (e - i)) ++
        subTOCTemplFuel tks fuel (s.drop e)

/-- Model of `existing_toc_pattern.sub` with a parsed replacement template
(fuel equal to the text length suffices, each match consuming at least 34
characters). -/
def subTOCTemplate (tks : List TemplTok) (s : List Char) : List Char :=
  subTOCTemplFuel tks s.length s

lemma parseTemplateGo_noBS : ∀ (fuel : Nat) (t : List Char), '\\' ∉ t → t.length ≤ fuel →
    parseTemplateGo fuel t = some (t.map TemplTok.lit) := by
  intro fuel
  induction fuel with
  | zero =>
    intro t h hf
    have ht : t = [] := List.eq_nil_of_length_eq_zero (Nat.le_zero.mp hf)
    subst ht
    rfl
  | succ f ih =>
    intro t h hf
    cases t with
    | nil => rfl
    | cons c r =>
      have hc : (c == '\\') = false := by
        simp only [beq_eq_false_iff_ne]
        exact fun he => h (he ▸ List.mem_cons_self c r)
      have hr : parseTemplateGo f r = some (r.map TemplTok.lit) :=
        ih r (fun hm => h (List.mem_cons_of_mem c hm))
          (by simp only [List.length_cons] at hf; omega)
      simp only [parseTemplateGo]
      simp [hc, hr]

lemma parseTemplate_noBS {t : List Char} (h : '\\' ∉ t) :
    parseTemplate t = some (t.map TemplTok.lit) :=
  parseTemplateGo_noBS t.length t h (Nat.le_refl _)

lemma instTemplate_lit (t : List Char) (m : List Char) :
    instTemplate (t.map TemplTok.lit) m = t := by
  induction t with
  | nil => rfl
  | cons c r ih => simp only [List.map_cons, instTemplate, List.foldr_cons] at ih ⊢; rw [ih]

lemma instTemplate_nil (m : List Char) : instTemplate [] m = [] := rfl

lemma instTemplate_lit_cons (c : Char) (ts : List TemplTok) (m : List Char) :
    instTemplate (TemplTok.lit c :: ts) m = c :: instTemplate ts m := rfl

lemma instTemplate_append (t1 t2 : List TemplTok) (m : List Char) :
    instTemplate (t1 ++ t2) m = instTemplate t1 m ++ instTemplate t2 m := by
  induction t1 with
  | nil => rfl
  | cons x ts ih =>
    cases x with
    | lit c =>
      show c :: instTemplate (ts ++ t2) m = c :: (instTemplate ts m ++ instTemplate t2 m)
      rw [ih]
    | group0 =>
      show m ++ instTemplate (ts ++ t2) m = (m ++ instTemplate ts m) ++ instTemplate t2 m
      rw [ih, List.append_assoc]

/-- Outcome messages of `update_file_toc`. -/
inductive UpdateMsg where
  | noHeaders
  | updatedExisting
  | addedNew
  | errored
deriving DecidableEq

/-- Result of one `update_file_toc` run: the content written back (`none`
when the file is not written), the boolean return value, and which message
was printed. -/
structure UpdateResult where
  written : Option (List Char)
  ok : Bool
  msg : UpdateMsg
deriving DecidableEq

/-- Model of `TOCGenerator.update_file_toc` (generate-toc.py lines 93-140):
extract headers (warn and fail without writing when there are none); when
the TOC pattern matches, replace every match, the rendered block being
passed to `sub` as a replacement template (a malformed replacement escape
raises `re.error` before anything is written, caught by the `except`
clause: nothing is written and the run fails); otherwise insert the block
after the case-insensitive first occurrence of `insert_after` when that is
supplied, non-empty and found — again through `sub`'s replacement-template
processing of `f"{insert_after}\n\n{new_toc}"`, with the same error path —
else at the very beginning by plain string concatenation. -/
def update_file_toc (content : List Char) (max_depth min_depth : Nat)
    (insert_after : Option (List Char)) : UpdateResult :=
  let headers := extract_headers content
  if headers = [] then ⟨none, false, UpdateMsg.noHeaders⟩
  else
    let new_toc := generate_toc headers max_depth min_depth
    if (findTOCBlock content).isSome then
      match parseTemplate new_toc with
      | some tks => ⟨some (subTOCTemplate tks content), true, UpdateMsg.updatedExisting⟩
      | none => ⟨none, false, UpdateMsg.errored⟩
    else
      match insert_after with
      | some ia =>
        if ia ≠ [] then
          match ciFind ia content with
          | some i =>
            match parseTemplate (ia ++ '\n' :: '\n' :: new_toc) with
            | some tks =>
              ⟨some (content.take i ++
                instTemplate tks ((content.drop i).take ia.length) ++
                content.drop (i + ia.length)), true, UpdateMsg.addedNew⟩
            | none => ⟨none, false, UpdateMsg.errored⟩
          | none => ⟨some (new_toc ++ '\n' :: content), true, UpdateMsg.addedNew⟩
        else ⟨some (new_toc ++ '\n' :: content), true, UpdateMsg.addedNew⟩
      | none => ⟨some (new_toc ++ '\n' :: content), true, UpdateMsg.addedNew⟩

/-- Claim C4: when header extraction yields nothing, the update performs no
write, reports the no-headers warning, and returns failure. -/
theorem claim_C4_no_headers_skip (content : List Char) (max_depth min_depth : Nat)
    (insert_after : Option (List Char)) (h : extract_headers content = []) :
    update_file_toc content max_depth min_depth insert_after =
      ⟨none, false, UpdateMsg.noHeaders⟩ := by
  unfold update_file_toc
  simp [h]

/-- Witness for claim C4 on a file with no headers. -/
theorem claim_C4_witness :
    extract_headers "Just text.\nNothing else.".data = [] ∧
    update_file_toc "Just text.\nNothing else.".data 6 1 none =
      ⟨none, false, UpdateMsg.noHeaders⟩ :=
  ⟨by decide, claim_C4_no_headers_skip "Just text.\nNothing else.".data 6 1 none (by decide)⟩

/-- First literal segment of the statistics pattern (generate-toc.py lines
198-203). -/
def statsLit1 : List Char := "- **Total Issues:** ".data

/-- Second literal segment of the statistics pattern. -/
def statsLit2 : List Char := "\n- **Quick Fixes:** ".data

/-- Third literal segment of the statistics pattern. -/
def statsLit3 : List Char := "\n- **Detailed Guides:** ".data

/-- Match of the statistics regex (three labelled bullet lines, each ending
in `\d+`) at the start of `s`; returns the match length.  The greedy `\d+`
never backtracks here because each run is followed by a non-digit literal. -/
def matchStatsAt (s : List Char) : Option Nat :=
  if statsLit1.isPrefixOf s then
    let r1 := s.drop statsLit1.length
    let d1 := r1.takeWhile Char.isDigit
    if 1 ≤ d1.length then
      let r2 := r1.drop d1.length
      if statsLit2.isPrefixOf r2 then
        let r3 := r2.drop statsLit2.length
        let d2 := r3.takeWhile Char.isDigit
        if 1 ≤ d2.length then
          let r4 := r3.drop d2.length
          if statsLit3.isPrefixOf r4 then
            let r5 := r4.drop statsLit3.length
            let d3 := r5.takeWhile Char.isDigit
            if 1 ≤ d3.length then
              some (statsLit1.length + d1.length + statsLit2.length + d2.length +
                statsLit3.length + d3.length)
            else none
          else none
        else none
      else none
    else none
  else none

/-- Literal segment of the last-updated pattern (generate-toc.py line 221). -/
def dateLit : List Char := "- **Last Updated:** ".data

/-- Match of `- \*\*Last Updated:\*\* \d{4}-\d{2}-\d{2}` at the start of
`s`; returns the match length. -/
def matchDateAt (s : List Char) : Option Nat :=
  if dateLit.isPrefixOf s then
    match s.drop dateLit.length with
    | y1 :: y2 :: y3 :: y4 :: m0 :: m1 :: m2 :: d0 :: d1 :: d2 :: _ =>
      if y1.isDigit && y2.isDigit && y3.isDigit && y4.isDigit && m0 == '-' &&
          m1.isDigit && m2.isDigit && d0 == '-' && d1.isDigit && d2.isDigit then
        some (dateLit.length + 10)
      else none
    | _ => none
  else none

/-- Scan for the first position at which the matcher `m` succeeds; returns
the match position and length (semantics of `re.search`). -/
def findPatAux (m : List Char → Option Nat) : List Char → Option (Nat × Nat)
  | [] => (m []).map (fun len => (0, len))
  | c :: cs =>
    match m (c :: cs) with
    | some len => some (0, len)
    | none => (findPatAux m cs).map (fun p => (p.1 + 1, p.2))

/-- Fuel-bounded `re.sub` for a positional matcher: replace every
non-overlapping match; every matcher used here matches at least one
character, so fuel equal to the text length suffices. -/
def subAllFuel (m : List Char → Option Nat) (repl : List Char) : Nat → List Char → List Char
  | 0, s => s
  | fuel + 1, s =>
    match findPatAux m s with
    | none => s
    | some (i, len) => s.take i ++ repl ++ subAllFuel m repl fuel (s.drop (i + len))

lemma subAllFuel_none {m : List Char → Option Nat} {repl : List Char} {fuel : Nat}
    {s : List Char} (h : findPatAux m s = none) : subAllFuel m repl fuel s = s := by
  cases fuel <;> simp [subAllFuel, h]

lemma subAllFuel_some {m : List Char → Option Nat} {repl : List Char} {fuel : Nat}
    {s : List Char} {i len : Nat} (h : findPatAux m s = some (i, len)) :
    subAllFuel m repl (fuel + 1) s =
      s.take i ++ repl ++ subAllFuel m repl fuel (s.drop (i + len)) := by
  simp [subAllFuel, h]

/-- Search for the statistics section. -/
def statsFind (s : List Char) : Option (Nat × Nat) := findPatAux matchStatsAt s

/-- Replace every statistics-section match. -/
def statsSubst (repl s : List Char) : List Char := subAllFuel matchStatsAt repl s.length s

/-- Search for the last-updated line. -/
def dateFind (s : List Char) : Option (Nat × Nat) := findPatAux matchDateAt s

/-- Replace every last-updated match. -/
def dateSubst (repl s : List Char) : List Char := subAllFuel matchDateAt repl s.length s

/-- Freshly computed statistics block (generate-toc.py lines 205-209). -/
def newStatsBlock (total quick detailed : Nat) : List Char :=
  statsLit1 ++ (Nat.repr total).data ++ statsLit2 ++ (Nat.repr quick).data ++
    statsLit3 ++ (Nat.repr detailed).data

/-- Model of `TOCGenerator.update_main_readme` (generate-toc.py lines
177-236), restricted to its text transformation: the issue counts computed
by the repository indexer and today's date are taken as parameters.
Returns the content written back (`none` when the README is left
untouched) and the boolean result. -/
def update_main_readme (content : List Char) (total quick detailed : Nat)
    (today : List Char) : Option (List Char) × Bool :=
  let new_stats := newStatsBlock total quick detailed
  if (statsFind content).isSome then
    let u := statsSubst new_stats content
    let new_date := dateLit ++ today
    let u2 := if (dateFind u).isSome then dateSubst new_date u else u
    (some u2, true)
  else (none, false)

/-- Claim C7: when the statistics pattern is absent the updater reports
failure and writes nothing; when it is present the matched section is
replaced verbatim with the freshly computed block (and the date line is
then updated in the result). -/
theorem claim_C7_readme_stats (content : List Char) (total quick detailed : Nat)
    (today : List Char) :
    (statsFind content = none →
      update_main_readme content total quick detailed today = (none, false)) ∧
    (∀ i len, statsFind content = some (i, len) →
      (update_main_readme content total quick detailed today).2 = true ∧
      (update_main_readme content total quick detailed today).1 =
        some (let u := content.take i ++ newStatsBlock total quick detailed ++
                subAllFuel matchStatsAt (newStatsBlock total quick detailed)
                  (content.length - 1) (content.drop (i + len))
              if (dateFind u).isSome then dateSubst (dateLit ++ today) u else u)) := by
  constructor
  · intro h
    unfold update_main_readme
    simp [statsFind] at h ⊢
    simp [h]
  · intro i len h
    have hsome : (statsFind content).isSome := by rw [h]; rfl
    constructor
    · unfold update_main_readme
      simp [hsome]
    · unfold update_main_readme
      simp only [hsome, if_true, if_pos]
      have hstep : statsSubst (newStatsBlock total quick detailed) content =
          content.take i ++ newStatsBlock total quick detailed ++
            subAllFuel matchStatsAt (newStatsBlock total quick detailed)
              (content.length - 1) (content.drop (i + len)) := by
        unfold statsSubst
        have hlen : 1 ≤ content.length := by
          cases content with
          | nil =>
            exfalso
            unfold statsFind findPatAux at h
            cases hm : matchStatsAt [] with
            | none => rw [hm] at h; cases h
            | some l =>
              unfold matchStatsAt at hm
              have : ¬ statsLit1.isPrefixOf ([] : List Char) := by decide
              rw [if_neg this] at hm
              cases hm
          | cons a t => simp
        obtain ⟨n, hn⟩ : ∃ n, content.length = n + 1 :=
          ⟨content.length - 1, by omega⟩
        rw [hn]
        simp only [Nat.add_sub_cancel]
        exact subAllFuel_some h
      rw [hstep]

/-- Witness for claim C7: a README without the statistics pattern is left
unchanged with failure; one consisting of exactly the three labelled bullet
lines matches at position 0 with length 67 and the update reports success. -/
theorem claim_C7_witness :
    statsFind "no stats here".data = none ∧
    update_main_readme "no stats here".data 3 1 2 "2026-10-12".data = (none, false) ∧
    statsFind "- **Total Issues:** 9\n- **Quick Fixes:** 4\n- **Detailed Guides:** 5".data =
      some (0, 67) ∧
    (update_main_readme
      "- **Total Issues:** 9\n- **Quick Fixes:** 4\n- **Detailed Guides:** 5".data
      3 1 2 "2026-10-12".data).2 = true :=
  ⟨by decide,
   (claim_C7_readme_stats "no stats here".data 3 1 2 "2026-10-12".data).1 (by decide),
   by decide,
   ((claim_C7_readme_stats
      "- **Total Issues:** 9\n- **Quick Fixes:** 4\n- **Detailed Guides:** 5".data
      3 1 2 "2026-10-12".data).2 0 67 (by decide)).1⟩

/-- Match of `^##\s+` at the head of a (line-initial) position: two hash
marks followed by at least one whitespace character. -/
def hhMatchB : List Char → Bool
  | c1 :: c2 :: c3 :: _ => c1 == '#' && c2 == '#' && pyIsSpace c3
  | _ => false

/-- Count of the matches of `re.findall(r'^##\s+', content, re.MULTILINE)`:
one per line-initial position starting with `##` plus whitespace (the
whitespace may be the line's own terminating newline).  The boolean records
whether the current position starts a line. -/
def countHashGo : List Char → Bool → Nat
  | [], _ => 0
  | c :: cs, atStart =>
    (if atStart && hhMatchB (c :: cs) then 1 else 0) + countHashGo cs (c == '\n')

/-- Model of `count_issues_in_file` (update-stats.py lines 8-14): number of
`^##\s+` matches, minus one when there is at least one match. -/
def count_issues_in_file (content : List Char) : Nat :=
  let n := countHashGo content true
  if n ≠ 0 then n - 1 else 0

/-- Model of `count_quick_fixes` (update-stats.py lines 16-21); the
directory walk is abstracted to the list of markdown file contents. -/
def count_quick_fixes (files : List (List Char)) : Nat :=
  (files.map count_issues_in_file).sum

/-- Model of `count_detailed_guides` (update-stats.py lines 23-28); the
recursive directory walk is abstracted to the list of markdown file
contents. -/
def count_detailed_guides (files : List (List Char)) : Nat :=
  (files.map count_issues_in_file).sum

/-- The three numeric fields published by `update_readme_stats`
(update-stats.py lines 32-34): total, quick fixes, detailed guides. -/
def statsTotals (qf df : List (List Char)) : Nat × Nat × Nat :=
  let quick := count_quick_fixes qf
  let detailed := count_detailed_guides df
  (quick + detailed, quick, detailed)

/-- Spec-literal per-file counter for claim C8: number of lines beginning
with the three characters `"## "` minus one (truncated at zero).  (Written
from the claim's words, to be compared with `count_issues_in_file`.) -/
def specPerFileCount (content : List Char) : Nat :=
  ((splitLines content).filter (fun l => "## ".data.isPrefixOf l)).length - 1

/-- Whether a line consists of exactly `##`. -/
def lineIsHashHashAlone : List Char → Bool
  | [c1, c2] => c1 == '#' && c2 == '#'
  | _ => false

/-- Amended per-line counter: a line counts when it begins with `##`
followed by a whitespace character, or (for every line except the last,
whose newline the regex's `\s+` can consume) when it is exactly `##`. -/
def amendedLineCount : List (List Char) → Nat
  | [] => 0
  | [l] => if hhMatchB l then 1 else 0
  | l :: l2 :: ls =>
    (if hhMatchB l || lineIsHashHashAlone l then 1 else 0) + amendedLineCount (l2 :: ls)

lemma countHashGo_no_newline {l : List Char} (h : ∀ c ∈ l, c ≠ '\n') (b : Bool) :
    countHashGo l b = if b && hhMatchB l then 1 else 0 := by
  induction l generalizing b with
  | nil => simp [countHashGo, hhMatchB]
  | cons a t ih =>
    have ha : (a == '\n') = false := by
      simp only [beq_eq_false_iff_ne, ne_eq]
      exact h a (List.mem_cons_self _ _)
    simp only [countHashGo, ha]
    rw [ih (fun c hc => h c (List.mem_cons_of_mem _ hc)) false]
    simp

lemma hhMatchB_head_ne {c : Char} {cs : List Char} (h : (c == '#') = false) :
    hhMatchB (c :: cs) = false := by
  match cs with
  | [] => rfl
  | [c2] => rfl
  | c2 :: c3 :: t =>
    show (c == '#' && c2 == '#' && pyIsSpace c3) = false
    simp [h]

lemma hhMatchB_second_ne {c1 c : Char} {cs : List Char} (h : (c == '#') = false) :
    hhMatchB (c1 :: c :: cs) = false := by
  match cs with
  | [] => rfl
  | c3 :: t =>
    show (c1 == '#' && c == '#' && pyIsSpace c3) = false
    simp [h]

lemma countHashGo_append_newline {l rest : List Char} (h : ∀ c ∈ l, c ≠ '\n') (b : Bool) :
    countHashGo (l ++ '\n' :: rest) b =
      (if b && hhMatchB (l ++ '\n' :: rest) then 1 else 0) + countHashGo rest true := by
  induction l generalizing b with
  | nil =>
    show countHashGo ('\n' :: rest) b =
      (if b && hhMatchB ([] ++ '\n' :: rest) then 1 else 0) + countHashGo rest true
    simp only [countHashGo, List.nil_append]
    rw [show (('\n' : Char) == '\n') = true from by decide]
  | cons a t ih =>
    have ha : (a == '\n') = false := by
      simp only [beq_eq_false_iff_ne, ne_eq]
      exact h a (List.mem_cons_self _ _)
    simp only [List.cons_append, countHashGo, ha, List.append_eq]
    rw [ih (fun c hc => h c (List.mem_cons_of_mem _ hc)) false]
    simp

lemma hhMatchB_append_newline {l rest : List Char} :
    hhMatchB (l ++ '\n' :: rest) = (hhMatchB l || lineIsHashHashAlone l) := by
  match l with
  | [] =>
    show hhMatchB ('\n' :: rest) = (hhMatchB [] || lineIsHashHashAlone [])
    rw [hhMatchB_head_ne (by decide)]
    rfl
  | [c1] =>
    show hhMatchB (c1 :: '\n' :: rest) = (hhMatchB [c1] || lineIsHashHashAlone [c1])
    rw [hhMatchB_second_ne (by decide)]
    rfl
  | [c1, c2] =>
    show (c1 == '#' && c2 == '#' && pyIsSpace '\n') =
      (hhMatchB [c1, c2] || lineIsHashHashAlone [c1, c2])
    rw [show pyIsSpace '\n' = true from by decide]
    show (c1 == '#' && c2 == '#' && true) = (false || (c1 == '#' && c2 == '#'))
    simp
  | c1 :: c2 :: c3 :: t =>
    show (c1 == '#' && c2 == '#' && pyIsSpace c3) =
      (hhMatchB (c1 :: c2 :: c3 :: t) || lineIsHashHashAlone (c1 :: c2 :: c3 :: t))
    show (c1 == '#' && c2 == '#' && pyIsSpace c3) =
      ((c1 == '#' && c2 == '#' && pyIsSpace c3) || lineIsHashHashAlone (c1 :: c2 :: c3 :: t))
    have : lineIsHashHashAlone (c1 :: c2 :: c3 :: t) = false := rfl
    rw [this]
    simp

lemma countHashGo_joinLines {ls : List (List Char)} (hne : ls ≠ [])
    (hnl : ∀ l ∈ ls, ∀ c ∈ l, c ≠ '\n') :
    countHashGo (joinLines ls) true = amendedLineCount ls := by
  induction ls with
  | nil => exact absurd rfl hne
  | cons l ls' ih =>
    cases ls' with
    | nil =>
      show countHashGo l true = _
      rw [countHashGo_no_newline (hnl l (List.mem_cons_self _ _)) true]
      simp [amendedLineCount]
    | cons l2 ls2 =>
      show countHashGo (l ++ '\n' :: joinLines (l2 :: ls2)) true = _
      rw [countHashGo_append_newline (hnl l (List.mem_cons_self _ _)) true]
      rw [hhMatchB_append_newline]
      rw [ih (by simp) (fun x hx => hnl x (List.mem_cons_of_mem _ hx))]
      simp [amendedLineCount]

/-- Claim C8 counterexample: the regex `^##\s+` accepts any whitespace
after the hash marks, not only a space; a file whose section headers use
tabs is counted by the code but has no line beginning with `"## "`. -/
theorem claim_C8_counterexample :
    count_issues_in_file "##\tAlpha\n##\tBeta".data = 1 ∧
    specPerFileCount "##\tAlpha\n##\tBeta".data = 0 ∧
    count_issues_in_file "##\tAlpha\n##\tBeta".data ≠
      specPerFileCount "##\tAlpha\n##\tBeta".data :=
  ⟨by decide, by decide, by decide⟩

/-- Claim C8 (amended): the per-file count is the number of line-initial
`##`-plus-whitespace matches minus one (zero when there are none, and a
non-final line consisting of exactly `##` also matches, its newline serving
as the whitespace); the per-directory counts are the sums of the per-file
counts, and the published total equals quick fixes plus detailed guides. -/
theorem claim_C8_issue_counting (content : List Char) (qf df : List (List Char)) :
    count_issues_in_file content = amendedLineCount (splitLines content) - 1 ∧
    count_quick_fixes qf = (qf.map (fun c => amendedLineCount (splitLines c) - 1)).sum ∧
    count_detailed_guides df = (df.map (fun c => amendedLineCount (splitLines c) - 1)).sum ∧
    (statsTotals qf df).1 = count_quick_fixes qf + count_detailed_guides df := by
  have key : ∀ c : List Char, count_issues_in_file c = amendedLineCount (splitLines c) - 1 := by
    intro c
    unfold count_issues_in_file
    have : countHashGo c true = amendedLineCount (splitLines c) := by
      conv_lhs => rw [← joinLines_splitLines c]
      exact countHashGo_joinLines (splitLines_ne_nil c)
        (fun l hl cc hcc => mem_splitLines_no_newline hl hcc)
    rw [this]
    by_cases hz : amendedLineCount (splitLines c) = 0
    · simp [hz]
    · simp [hz]
  refine ⟨key content, ?_, ?_, rfl⟩
  · unfold count_quick_fixes
    congr 1
    exact List.map_congr_left (fun c _ => key c)
  · unfold count_detailed_guides
    congr 1
    exact List.map_congr_left (fun c _ => key c)

/-- Kind of the path argument given to the TOC tool: missing, an existing
file (with or without a markdown suffix), an existing directory (with the
number of markdown files the chosen glob finds), or an existing path that
is neither a file nor a directory. -/
inductive PathKind where
  | missing
  | file (isMd : Bool)
  | dir (nMd : Nat)
  | other
deriving DecidableEq

/-- Model of `main` (generate-toc.py lines 274-341), reduced to its exit
code and whether the per-run summary was printed.  `--update-readme` mode
returns before any path check (exit 0, no summary); a missing path and an
existing non-markdown file call `sys.exit(1)`; a markdown file is processed
and the summary printed whatever the per-file outcome; a directory with no
markdown files returns before the summary; any other existing path falls
through both branches to the summary. -/
def mainRun (update_readme : Bool) (pk : PathKind) : Nat × Bool :=
  if update_readme then (0, false)
  else
    match pk with
    | PathKind.missing => (1, false)
    | PathKind.file true => (0, true)
    | PathKind.file false => (1, false)
    | PathKind.dir 0 => (0, false)
    | PathKind.dir (_ + 1) => (0, true)
    | PathKind.other => (0, true)

/-- Claim C9 counterexample: in `--update-readme` mode a missing path still
exits 0 (the claim demands non-zero), and a directory containing no
markdown files exits 0 without printing the per-run summary (the claim
demands the summary). -/
theorem claim_C9_counterexample :
    mainRun true PathKind.missing = (0, false) ∧
    mainRun false (PathKind.dir 0) = (0, false) :=
  ⟨rfl, rfl⟩

/-- Claim C9 (amended): outside `--update-readme` mode, the process exits
non-zero exactly when the path is missing or is an existing non-markdown
file; `--update-readme` mode always exits 0; the per-run summary is printed
exactly for a markdown file, a directory with at least one markdown file,
or an existing path that is neither file nor directory. -/
theorem claim_C9_exit_behavior (update_readme : Bool) (pk : PathKind) :
    ((mainRun update_readme pk).1 = 0 ↔
      (update_readme = true ∨ (pk ≠ PathKind.missing ∧ pk ≠ PathKind.file false))) ∧
    ((mainRun update_readme pk).2 = true ↔
      (update_readme = false ∧ (pk = PathKind.file true ∨
        (∃ n, pk = PathKind.dir (n + 1)) ∨ pk = PathKind.other))) := by
  cases update_readme with
  | true => simp [mainRun]
  | false =>
    rcases pk with _ | md | n | _
    · simp [mainRun]
    · cases md <;> simp [mainRun]
    · cases n with
      | zero => simp [mainRun]
      | succ m =>
        constructor
        · simp [mainRun]
        · simp [mainRun]
    · simp [mainRun]

lemma anchor_no_newline {t : List Char} : '\n' ∉ generate_anchor t := by
  intro h
  have := (anchor_chars h).2.1
  rw [show pyIsSpace '\n' = true from by decide] at this
  cases this

lemma mem_tocEntry {m l : Nat} {t a : List Char} {c : Char}
    (hc : c ∈ tocEntry m (l, t, a)) :
    c = ' ' ∨ c = '-' ∨ c = '[' ∨ c = ']' ∨ c = '(' ∨ c = '#' ∨ c = ')' ∨ c ∈ t ∨ c ∈ a := by
  unfold tocEntry at hc
  simp only [List.mem_append, List.mem_cons, List.mem_singleton, List.mem_replicate,
    List.not_mem_nil, or_false] at hc
  tauto

lemma entry_no_newline {m l : Nat} {t a : List Char} (ht : ∀ c ∈ t, c ≠ '\n')
    (ha : '\n' ∉ a) : ∀ c ∈ tocEntry m (l, t, a), c ≠ '\n' := by
  intro c hc
  rcases mem_tocEntry hc with rfl | rfl | rfl | rfl | rfl | rfl | rfl | h | h
  · decide
  · decide
  · decide
  · decide
  · decide
  · decide
  · decide
  · exact ht c h
  · intro he; exact ha (he ▸ h)

lemma headerMatchAt_nil : headerMatchAt [] = none := by decide

lemma headerMatchAt_head_ne {c : Char} {cs : List Char} (h : (c == '#') = false) :
    headerMatchAt (c :: cs) = none := by
  have htw : (c :: cs).takeWhile (fun x => x == '#') = [] := by
    rw [List.takeWhile_cons_of_neg]
    simp [h]
  simp [headerMatchAt, htw]

lemma headerBacktrack_eq_some {j k : Nat} {W cap rest : List Char}
    (h : headerBacktrack k W = some (j, cap, rest)) :
    j = k ∧ (∃ c, cap = [c] ∧ c ∈ W ∧ (c == '\n') = false) ∧
      (∀ c ∈ rest, c = '\n') ∧ rest.length + 2 ≤ W.length := by
  unfold headerBacktrack at h
  simp only at h
  cases hrv : W.reverse.dropWhile (fun c => c == '\n') with
  | nil => simp [hrv] at h
  | cons c tl =>
    simp only [hrv] at h
    by_cases h3 : 2 ≤ W.length - (W.reverse.takeWhile (fun c => c == '\n')).length
    · rw [if_pos h3] at h
      simp only [Option.some.injEq, Prod.mk.injEq] at h
      obtain ⟨h4, h5, h6⟩ := h
      have hcW : c ∈ W := by
        have : c ∈ W.reverse.dropWhile (fun c => c == '\n') := by
          rw [hrv]; exact List.mem_cons_self _ _
        exact List.mem_reverse.mp ((List.dropWhile_suffix _).subset this)
      have hcnl : (c == '\n') = false := by
        apply head?_dropWhile (p := fun c => c == '\n') (l := W.reverse)
        rw [hrv]; rfl
      have hnlen : (W.reverse.takeWhile (fun c => c == '\n')).length ≤ W.length := by
        have := (List.takeWhile_prefix (fun c : Char => c == '\n')
          (l := W.reverse)).length_le
        simpa using this
      refine ⟨h4.symm, ⟨c, h5.symm, hcW, hcnl⟩, ?_, ?_⟩
      · intro x hx
        rw [← h6] at hx
        exact eq_of_beq (List.mem_takeWhile_imp (p := fun c => c == '\n') hx)
      · rw [← h6]
        omega
    · rw [if_neg h3] at h; cases h

lemma headerMatchAt_some_facts {s : List Char} {k : Nat} {cap rest : List Char}
    (h : headerMatchAt s = some (k, cap, rest)) :
    (∀ c ∈ cap, c ≠ '\n') ∧ cap <:+: s ∧ rest.length + 3 ≤ s.length ∧
      (rest <:+ s ∨ ∀ c ∈ rest, c = '\n') := by
  unfold headerMatchAt at h
  simp only at h
  by_cases h1 : 1 ≤ (s.takeWhile (fun c => c == '#')).length ∧
      (s.takeWhile (fun c => c == '#')).length ≤ 6
  swap
  · rw [if_neg h1] at h; cases h
  rw [if_pos h1] at h
  by_cases h2 : 1 ≤ ((s.dropWhile (fun c => c == '#')).takeWhile pyIsSpace).length
  swap
  · rw [if_neg h2] at h; cases h
  rw [if_pos h2] at h
  have hsplit1 : s.takeWhile (fun c => c == '#') ++ s.dropWhile (fun c => c == '#') = s :=
    List.takeWhile_append_dropWhile _ _
  have hsplit2 : (s.dropWhile (fun c => c == '#')).takeWhile pyIsSpace ++
      (s.dropWhile (fun c => c == '#')).dropWhile pyIsSpace =
      s.dropWhile (fun c => c == '#') :=
    List.takeWhile_append_dropWhile _ _
  cases hW : (s.dropWhile (fun c => c == '#')).dropWhile pyIsSpace with
  | nil =>
    rw [hW] at h
    obtain ⟨-, ⟨c, rfl, hcW, hcnl⟩, hrest, hlen⟩ := headerBacktrack_eq_some h
    have hWs : (s.dropWhile (fun c => c == '#')).takeWhile pyIsSpace =
        s.dropWhile (fun c => c == '#') := by
      rw [hW] at hsplit2
      simpa using hsplit2
    refine ⟨?_, ?_, ?_, Or.inr hrest⟩
    · intro x hx
      rcases List.mem_singleton.mp hx with rfl
      intro he
      rw [he] at hcnl
      simp at hcnl
    · have hcs : c ∈ s :=
        (List.dropWhile_suffix _).subset ((List.takeWhile_prefix _).subset hcW)
      obtain ⟨u, v, rfl⟩ := List.append_of_mem hcs
      exact ⟨u, v, by simp⟩
    · have hlen1 := congrArg List.length hsplit1
      simp only [List.length_append] at hlen1
      have hlen2 : (s.dropWhile (fun c => c == '#')).length =
          ((s.dropWhile (fun c => c == '#')).takeWhile pyIsSpace).length := by
        rw [hWs]
      omega
  | cons c r =>
    rw [hW] at h
    simp only [Option.some.injEq, Prod.mk.injEq] at h
    obtain ⟨-, rfl, rfl⟩ := h
    have hmid : (c :: r) <:+ s.dropWhile (fun c => c == '#') := by
      rw [← hW]
      exact List.dropWhile_suffix pyIsSpace
    refine ⟨?_, ?_, ?_, ?_⟩
    · intro x hx
      have := List.mem_takeWhile_imp hx
      simpa using this
    · exact ((List.takeWhile_prefix _).isInfix.trans hmid.isInfix).trans
        (List.dropWhile_suffix (fun c => c == '#')).isInfix
    · have hlen1 := congrArg List.length hsplit1
      simp only [List.length_append] at hlen1
      have hlen2 := congrArg List.length hsplit2
      rw [hW] at hlen2
      simp only [List.length_append, List.length_cons] at hlen2
      have hcsp : pyIsSpace c = false := by
        apply head?_dropWhile (l := s.dropWhile (fun c => c == '#'))
        rw [hW]; rfl
      have hcnl : (!(c == '\n')) = true := by
        rcases Bool.eq_false_or_eq_true (c == '\n') with hb | hb
        · exfalso
          have hce : c = '\n' := by simpa using hb
          rw [hce] at hcsp
          simp [pyIsSpace] at hcsp
        · simp [hb]
      have hsplit3 : (c :: r).takeWhile (fun x => !(x == '\n')) ++
          (c :: r).dropWhile (fun x => !(x == '\n')) = c :: r :=
        List.takeWhile_append_dropWhile _ _
      have hcap1 : 1 ≤ ((c :: r).takeWhile (fun x => !(x == '\n'))).length := by
        rw [List.takeWhile_cons_of_pos (p := fun x => !(x == '\n')) (l := r) hcnl]
        simp
      have hlen3 := congrArg List.length hsplit3
      simp only [List.length_append, List.length_cons] at hlen3
      omega
    · left
      exact ((List.dropWhile_suffix _).trans hmid).trans
        (List.dropWhile_suffix (fun c => c == '#'))

lemma nextLineStart_newline_cons (r : List Char) : nextLineStart ('\n' :: r) = r := by
  unfold nextLineStart
  rw [List.dropWhile_cons_of_neg (by decide)]
  simp

lemma findallHeadersGo_nil (fuel : Nat) : findallHeadersGo fuel [] = [] := by
  cases fuel with
  | zero => rfl
  | succ f => simp [findallHeadersGo, headerMatchAt_nil]

lemma findallHeadersGo_succ_none {fuel : Nat} {s : List Char}
    (hm : headerMatchAt s = none) (hs : s ≠ []) :
    findallHeadersGo (fuel + 1) s = findallHeadersGo fuel (nextLineStart s) := by
  have hemp : s.isEmpty = false := by
    cases s with
    | nil => exact absurd rfl hs
    | cons a u => rfl
  simp [findallHeadersGo, hm, hemp]

lemma findallHeadersGo_succ_some {fuel : Nat} {s : List Char} {k : Nat} {cap rest : List Char}
    (hm : headerMatchAt s = some (k, cap, rest)) :
    findallHeadersGo (fuel + 1) s = (k, cap) :: findallHeadersGo fuel (nextLineStart rest) := by
  simp [findallHeadersGo, hm]

lemma findallHeadersGo_newlines : ∀ (fuel : Nat) (s : List Char),
    (∀ c ∈ s, c = '\n') → findallHeadersGo fuel s = [] := by
  intro fuel
  induction fuel with
  | zero => intro s h; rfl
  | succ f ih =>
    intro s h
    cases s with
    | nil => rw [findallHeadersGo_nil]
    | cons a u =>
      have ha : a = '\n' := h a (List.mem_cons_self a u)
      subst ha
      rw [findallHeadersGo_succ_none (headerMatchAt_head_ne (by decide)) (by simp),
        nextLineStart_newline_cons]
      exact ih u (fun c hc => h c (List.mem_cons_of_mem _ hc))

lemma findallHeadersGo_mem : ∀ (fuel : Nat) (s : List Char) (k : Nat) (cap : List Char),
    (k, cap) ∈ findallHeadersGo fuel s → (∀ c ∈ cap, c ≠ '\n') ∧ cap <:+: s := by
  intro fuel
  induction fuel with
  | zero => intro s k cap h; cases h
  | succ f ih =>
    intro s k cap h
    cases hm : headerMatchAt s with
    | none =>
      cases s with
      | nil => rw [findallHeadersGo_nil] at h; cases h
      | cons a u =>
        rw [findallHeadersGo_succ_none hm (by simp)] at h
        have hsub := ih _ _ _ h
        refine ⟨hsub.1, hsub.2.trans ?_⟩
        exact ((List.drop_suffix 1 _).trans (List.dropWhile_suffix _)).isInfix
    | some tpl =>
      obtain ⟨k0, cap0, rest0⟩ := tpl
      have hf := headerMatchAt_some_facts hm
      rw [findallHeadersGo_succ_some hm] at h
      rcases List.mem_cons.mp h with heq | htail
      · rw [Prod.mk.injEq] at heq
        obtain ⟨rfl, rfl⟩ := heq
        exact ⟨hf.1, hf.2.1⟩
      · have hsub := ih _ _ _ htail
        have hnx : nextLineStart rest0 <:+ rest0 :=
          (List.drop_suffix 1 _).trans (List.dropWhile_suffix _)
        rcases hf.2.2.2 with hsuf | hnl
        · exact ⟨hsub.1, hsub.2.trans (hnx.trans hsuf).isInfix⟩
        · exfalso
          have hnl2 : ∀ c ∈ nextLineStart rest0, c = '\n' := fun c hc =>
            hnl c (hnx.subset hc)
          rw [findallHeadersGo_newlines f _ hnl2] at htail
          cases htail

lemma findallHeaders_mem {s : List Char} {k : Nat} {cap : List Char}
    (h : (k, cap) ∈ findallHeaders s) : (∀ c ∈ cap, c ≠ '\n') ∧ cap <:+: s :=
  findallHeadersGo_mem s.length s k cap h

lemma mem_extract_headers {content : List Char} {l : Nat} {t a : List Char}
    (h : (l, t, a) ∈ extract_headers content) :
    a = generate_anchor t ∧ t <:+: content ∧ ∀ c ∈ t, c ≠ '\n' := by
  unfold extract_headers at h
  obtain ⟨kc, hkc, hf⟩ := List.mem_filterMap.mp h
  obtain ⟨k, cap⟩ := kc
  unfold headerEntry at hf
  simp only at hf
  by_cases hskip : (pyStrip pyIsSpace cap).map pyLower ∈ skipTitles
  · rw [if_pos hskip] at hf
    cases hf
  · rw [if_neg hskip] at hf
    simp only [Option.some.injEq, Prod.mk.injEq] at hf
    obtain ⟨-, rfl, rfl⟩ := hf
    have hfm := findallHeaders_mem hkc
    have hstrip : pyStrip pyIsSpace cap <:+: cap := by
      unfold pyStrip
      refine List.IsInfix.trans ?_ ((List.dropWhile_suffix pyIsSpace).isInfix)
      exact (dropTrailing_isPrefix _).isInfix
    refine ⟨rfl, hstrip.trans hfm.2, ?_⟩
    intro c hc
    exact hfm.1 c (hstrip.subset hc)

/-- Entry lines of the rendered TOC (the depth-filtered, indented links). -/
def tocEntries (headers : List (Nat × List Char × List Char))
    (max_depth min_depth : Nat) : List (List Char) :=
  let min_level := ((headers.map Prod.fst).min?).getD 0
  headers.filterMap (fun h =>
    if h.1 < min_depth ∨ max_depth < h.1 then none
    else some (tocEntry min_level h))

lemma toc_lines_eq (headers : List (Nat × List Char × List Char)) (max_depth min_depth : Nat) :
    toc_lines headers max_depth min_depth =
      [STARTsent, tocHeading, []] ++ tocEntries headers max_depth min_depth ++
        [[], ENDsent, []] := rfl

lemma mem_tocEntries {headers : List (Nat × List Char × List Char)}
    {max_depth min_depth : Nat} {e : List Char}
    (h : e ∈ tocEntries headers max_depth min_depth) :
    ∃ x ∈ headers, e = tocEntry (((headers.map Prod.fst).min?).getD 0) x := by
  unfold tocEntries at h
  simp only at h
  obtain ⟨x, hx, hfx⟩ := List.mem_filterMap.mp h
  by_cases hp : x.1 < min_depth ∨ max_depth < x.1
  · rw [if_pos hp] at hfx
    cases hfx
  · rw [if_neg hp] at hfx
    exact ⟨x, hx, (Option.some.injEq _ _ ▸ hfx).symm⟩

lemma entries_no_newline {content : List Char} {max_depth min_depth : Nat} :
    ∀ e ∈ tocEntries (extract_headers content) max_depth min_depth,
      ∀ c ∈ e, c ≠ '\n' := by
  intro e he
  obtain ⟨x, hx, rfl⟩ := mem_tocEntries he
  obtain ⟨l, t, a⟩ := x
  obtain ⟨rfl, -, ht⟩ := mem_extract_headers hx
  exact entry_no_newline ht anchor_no_newline

lemma toc_lines_no_newline {content : List Char} {max_depth min_depth : Nat} :
    ∀ l ∈ toc_lines (extract_headers content) max_depth min_depth,
      ∀ c ∈ l, c ≠ '\n' := by
  intro l hl
  rw [toc_lines_eq] at hl
  simp only [List.mem_append, List.mem_cons, List.not_mem_nil, or_false,
    List.mem_singleton] at hl
  rcases hl with ((rfl | rfl | rfl) | hent) | (rfl | rfl | rfl)
  · intro c hc; exact fun he => absurd (he ▸ hc) (by decide)
  · intro c hc; exact fun he => absurd (he ▸ hc) (by decide)
  · intro c hc; simp at hc
  · exact entries_no_newline l hent
  · intro c hc; simp at hc
  · intro c hc; exact fun he => absurd (he ▸ hc) (by decide)
  · intro c hc; simp at hc

lemma mem_joinLines_chars {ls : List (List Char)} {c : Char} (h : c ∈ joinLines ls) :
    c = '\n' ∨ ∃ l ∈ ls, c ∈ l := by
  induction ls with
  | nil => cases h
  | cons l ms ih =>
    cases ms with
    | nil => exact Or.inr ⟨l, List.mem_cons_self _ _, h⟩
    | cons m ms' =>
      rcases List.mem_append.mp h with h' | h'
      · exact Or.inr ⟨l, List.mem_cons_self _ _, h'⟩
      · rcases List.mem_cons.mp h' with rfl | h''
        · exact Or.inl rfl
        · rcases ih h'' with hnl | ⟨x, hx, hc⟩
          · exact Or.inl hnl
          · exact Or.inr ⟨x, List.mem_cons_of_mem _ hx, hc⟩

lemma anchor_no_backslash {t : List Char} : '\\' ∉ generate_anchor t := by
  intro h
  have := (anchor_chars h).1
  exact absurd this (by decide)

lemma noBS_generate_toc {content : List Char} {max_depth min_depth : Nat}
    (h : '\\' ∉ content) :
    '\\' ∉ generate_toc (extract_headers content) max_depth min_depth := by
  intro hmem
  unfold generate_toc at hmem
  by_cases h1 : extract_headers content = []
  · rw [if_pos h1] at hmem
    cases hmem
  · rw [if_neg h1] at hmem
    rcases mem_joinLines_chars hmem with hnl | ⟨l, hl, hc⟩
    · exact absurd hnl (by decide)
    · rw [toc_lines_eq] at hl
      simp only [List.mem_append, List.mem_cons, List.not_mem_nil, or_false,
        List.mem_singleton] at hl
      rcases hl with ((rfl | rfl | rfl) | hent) | (rfl | rfl | rfl)
      · exact absurd hc (by decide)
      · exact absurd hc (by decide)
      · cases hc
      · obtain ⟨x, hx, rfl⟩ := mem_tocEntries hent
        obtain ⟨lv, t, a⟩ := x
        obtain ⟨rfl, htc, -⟩ := mem_extract_headers hx
        rcases mem_tocEntry hc with h' | h' | h' | h' | h' | h' | h' | h' | h'
        · exact absurd h' (by decide)
        · exact absurd h' (by decide)
        · exact absurd h' (by decide)
        · exact absurd h' (by decide)
        · exact absurd h' (by decide)
        · exact absurd h' (by decide)
        · exact absurd h' (by decide)
        · exact h (htc.subset h')
        · exact anchor_no_backslash h'
      · cases hc
      · exact absurd hc (by decide)
      · cases hc

/-- Claim C6 counterexample: the code hands `re.sub` the replacement
f-string, so (1) a case-insensitive match is overwritten with the caller's
casing ("Intro" becomes "INTRO"); (2) an empty supplied anchor string is
falsy in Python and treated as absent, sending the block to the beginning;
(3) replacement escapes in the supplied text are processed, `\t` becoming a
tab character; and (4) a bad escape such as `\d` raises re.error, caught by
the except clause, so nothing is written and the run fails. -/
theorem claim_C6_counterexample :
    (update_file_toc "Intro\n# T".data 6 1 (some "INTRO".data)).written =
      some "INTRO\n\n<!-- TOC START -->\n## Table of Contents\n\n- [T](#t)\n\n<!-- TOC END -->\n\n# T".data ∧
    (update_file_toc "Intro\n# T".data 6 1 (some "INTRO".data)).written ≠
      some "Intro\n\n<!-- TOC START -->\n## Table of Contents\n\n- [T](#t)\n\n<!-- TOC END -->\n\n# T".data ∧
    (update_file_toc "# T".data 6 1 (some [])).written =
      some "<!-- TOC START -->\n## Table of Contents\n\n- [T](#t)\n\n<!-- TOC END -->\n\n# T".data ∧
    (update_file_toc "# T".data 6 1 (some [])).written ≠
      some "\n\n<!-- TOC START -->\n## Table of Contents\n\n- [T](#t)\n\n<!-- TOC END -->\n# T".data ∧
    (update_file_toc "a\\tb\n# T".data 6 1 (some "a\\tb".data)).written =
      some "a\tb\n\n<!-- TOC START -->\n## Table of Contents\n\n- [T](#t)\n\n<!-- TOC END -->\n\n# T".data ∧
    update_file_toc "\\d x\n# T".data 6 1 (some "\\d x".data) =
      ⟨none, false, UpdateMsg.errored⟩ :=
  ⟨by decide, by decide, by decide, by decide, by decide, by decide⟩

/-- Claim C6 (amended): with no existing TOC block, a supplied non-empty
anchor string found case-insensitively makes the block go immediately after
the first such occurrence, separated by a blank line, with the matched span
replaced by the supplied string itself, through `re.sub`'s
replacement-template processing (stated for backslash-free content and
anchor text, where the template is purely literal; a malformed replacement
escape instead aborts the update with nothing written); a missing, empty,
or not-found anchor string puts the block at the very beginning. -/
theorem claim_C6_insert_behavior (content : List Char) (max_depth min_depth : Nat)
    (insert_after : Option (List Char))
    (h1 : extract_headers content ≠ [])
    (h2 : findTOCBlock content = none) :
    (insert_after = none →
      (update_file_toc content max_depth min_depth insert_after).written =
        some (generate_toc (extract_headers content) max_depth min_depth ++ '\n' :: content)) ∧
    (∀ s, insert_after = some s → s = [] ∨ ciFind s content = none →
      (update_file_toc content max_depth min_depth insert_after).written =
        some (generate_toc (extract_headers content) max_depth min_depth ++ '\n' :: content)) ∧
    (∀ s i, insert_after = some s → s ≠ [] → ciFind s content = some i →
      '\\' ∉ s → '\\' ∉ content →
      (update_file_toc content max_depth min_depth insert_after).written =
        some (content.take i ++ s ++ '\n' :: '\n' ::
          generate_toc (extract_headers content) max_depth min_depth ++
          content.drop (i + s.length)) ∧
      s.map pyLower <+: (content.map pyLower).drop i ∧
      (∀ j, j < i → ¬ s.map pyLower <+: (content.map pyLower).drop j)) ∧
    (∀ s i, insert_after = some s → s ≠ [] → ciFind s content = some i →
      parseTemplate (s ++ '\n' :: '\n' ::
        generate_toc (extract_headers content) max_depth min_depth) = none →
      update_file_toc content max_depth min_depth insert_after =
        ⟨none, false, UpdateMsg.errored⟩) := by
  refine ⟨?_, ?_, ?_, ?_⟩
  · rintro rfl
    unfold update_file_toc
    simp [h1, h2]
  · rintro s rfl hcase
    unfold update_file_toc
    rcases hcase with rfl | hci
    · simp [h1, h2]
    · by_cases hs : s = []
      · subst hs; simp [h1, h2]
      · simp [h1, h2, hs, hci]
  · rintro s i rfl hs hci hbs1 hbs2
    have hnb : '\\' ∉ s ++ '\n' :: '\n' ::
        generate_toc (extract_headers content) max_depth min_depth := by
      intro hmem
      rcases List.mem_append.mp hmem with h' | h'
      · exact hbs1 h'
      · rcases List.mem_cons.mp h' with he | h''
        · exact absurd he (by decide)
        · rcases List.mem_cons.mp h'' with he | h3
          · exact absurd he (by decide)
          · exact noBS_generate_toc hbs2 h3
    refine ⟨?_, (firstMatchAt_some hci).1, fun j hj => (firstMatchAt_some hci).2.1 j hj⟩
    unfold update_file_toc
    simp [h1, h2, hs, hci, parseTemplate_noBS hnb, instTemplate_lit, instTemplate_append,
      instTemplate_lit_cons, instTemplate_nil]
  · rintro s i rfl hs hci hpt
    unfold update_file_toc
    simp [h1, h2, hs, hci, hpt]

/-- Witness for claim C6: inserting at the beginning of a one-header file
with no anchor supplied. -/
theorem claim_C6_witness :
    extract_headers "# T\nbody".data ≠ [] ∧
    findTOCBlock "# T\nbody".data = none ∧
    (update_file_toc "# T\nbody".data 6 1 none).written =
      some (generate_toc (extract_headers "# T\nbody".data) 6 1 ++ '\n' :: "# T\nbody".data) :=
  ⟨by decide, by decide,
   (claim_C6_insert_behavior "# T\nbody".data 6 1 none (by decide) (by decide)).1 rfl⟩
